import Mathlib

/-!
Shallow embedding of `src/entt/entity/view.hpp` (entt multi-component and
single-component views).

The component table (`pool_t` / `basic_sparse_set`, an external collaborator of
this header) is modelled from the spec as a dense entity array paired with a
parallel dense component array.  Everything at the view level — the join's
`contains`/`valid` predicates, the filtering `view_iterator`, `find`,
`front`/`back`, `size_hint`, the `each` driver-selection fold, `traverse`, and
the lazy `view_range` — is translated from the source header.

Entities are modelled as `Nat`; component values as `Nat`; zero-size ("tag",
`is_eto_eligible`) component types carry an `isTag` flag on their table.
-/

set_option autoImplicit false

namespace EnttView

/-- The distinguished null entity identifier (`entt::null`); compares unequal
to every live identifier. -/
def nullEntity : Nat := 4294967295

/-- Modelled from the spec: the external table accessor (`pool_t` backed by
`basic_sparse_set`, not part of this header).  Spec §3/§6: "a dense array of
entities in insertion/compaction order and a dense array of component values at
parallel offsets", with O(1) membership (`contains`), lookup (`get`) and
`find`; for zero-size ("tag") component types only membership is tracked. -/
structure Table where
  entities : List Nat
  comps : List Nat
  isTag : Bool

/-- The default table used to totalize positional access to table lists. -/
def emptyTable : Table := ⟨[], [], false⟩

/-- Spec §6: `size() -> count`. -/
def Table.size (t : Table) : Nat := t.entities.length

/-- Spec §6: `contains(entity) -> bool`, membership in the dense entity array
(via the sparse index in the real code). -/
def Table.contains (t : Table) (e : Nat) : Bool := t.entities.contains e

/-- Spec §6: `get(entity) -> component-ref`, the component stored at the
entity's dense offset; precondition `contains(entity)`. -/
def Table.get (t : Table) (e : Nat) : Nat := t.comps.getD (t.entities.indexOf e) 0

/-- Spec §6: `find(entity) -> cursor` into the dense array, `end()` (here:
`size`) if absent.  `List.indexOf` returns the length when absent, which is
exactly the past-the-end position. -/
def Table.find (t : Table) (e : Nat) : Nat := t.entities.indexOf e

/-- Well-formedness of a table: a table maps each entity to at most one
component (dense entities are distinct) and, for a non-tag component type, the
component array runs parallel to the entity array (for tag types the component
array degenerates to nothing — only membership is tracked). -/
def Table.WF (t : Table) : Prop :=
  t.entities.Nodup ∧ (t.isTag = false → t.comps.length = t.entities.length)

instance (t : Table) : Decidable t.WF := by unfold Table.WF; infer_instance

/-- The multi component view `basic_view<Entity, exclude_t<Exclude...>,
Component...>`.  `first` is the leading component's table (`leading_type`, the
first of `Component...`), `rest` the remaining included tables in declaration
order, `excludes` the `Exclude...` tables in declaration order. -/
structure JoinView where
  first : Table
  rest : List Table
  excludes : List Table

/-- All included tables, leading first (the pack `Component...`). -/
def JoinView.includes (J : JoinView) : List Table := J.first :: J.rest

/-- Positional access to the included tables (type `Component_k`). -/
def JoinView.tableAt (J : JoinView) (k : Nat) : Table := J.includes.getD k emptyTable

/-- view.hpp:402-404 — `contains`:
`(view_type<Component>::contains(entt) && ...) &&
 !(view_type<Exclude>::contains(entt) || ...)`. -/
def JoinView.contains (J : JoinView) (e : Nat) : Bool :=
  (J.includes.all fun t => t.contains e) && !(J.excludes.any fun t => t.contains e)

/-- The included-tables conjunction of view.hpp:232 and view.hpp:249:
`((std::is_same_v<Comp, Component> || view_type<Component>::contains(entt)) && ...)`.
The type-equality test holds exactly at the driving component's position, so it
is modelled as an index comparison: `i` is the index of the head of `l` within
the pack and `k` the index of the driving component. -/
def includedCheck (k : Nat) (e : Nat) : Nat → List Table → Bool
  | _, [] => true
  | i, t :: ts => (i == k || t.contains e) && includedCheck k e (i + 1) ts

/-- The body of `traverse` (view.hpp:249 / view.hpp:259): validity restricted
to skip the driving component at index `k`, plus the exclusion disjunction
`!(view_type<Exclude>::contains(entt) || ...)`. -/
def JoinView.validExcept (J : JoinView) (k : Nat) (e : Nat) : Bool :=
  includedCheck k e 0 J.includes && !(J.excludes.any fun t => t.contains e)

/-- view.hpp:231-234 — `valid`: the same conjunction with
`std::is_same_v<Component, leading_type>`, i.e. the driving component is the
leading one, at index 0. -/
def JoinView.valid (J : JoinView) (e : Nat) : Bool := J.validExcept 0 e

/-- view.hpp:294-296 — `size_hint`:
`(std::min)({ view_type<Component>::size()... })`. -/
def JoinView.size_hint (J : JoinView) : Nat :=
  J.rest.foldl (fun a t => min a t.size) J.first.size

/-- Length of the leading table's dense entity array: the `view_iterator`'s
past-the-end position (`last`). -/
def JoinView.len (J : JoinView) : Nat := J.first.entities.length

/-- The entity at position `p` of the leading table's dense array. -/
def JoinView.entAt (J : JoinView) (p : Nat) : Nat := J.first.entities.getD p 0

/-- The `view_iterator` skip loop: from position `p`, the first position `≥ p`
whose entity passes `valid`, or `len` (past-the-end).  This is the combined
effect of the constructor's skip (view.hpp:88-90) and of `operator++`'s
`while(++it != last && !parent->valid(*it))` (view.hpp:102-105). -/
def JoinView.nextValid (J : JoinView) (p : Nat) : Nat :=
  if h : p < J.len then
    if J.valid (J.entAt p) then p else J.nextValid (p + 1)
  else J.len
termination_by J.len - p

/-- view.hpp:310-312 — `begin()`: wrap the leading table's `begin` (position
0); the constructor skips forward past invalid positions. -/
def JoinView.beginPos (J : JoinView) : Nat := J.nextValid 0

/-- The sequence of entities produced by iterating `[begin(), end())`:
repeatedly yield the entity at the current valid position and advance with the
`operator++` loop.  Written as a positional scan of the leading dense array. -/
def JoinView.seqFrom (J : JoinView) (p : Nat) : List Nat :=
  if h : p < J.len then
    if J.valid (J.entAt p) then J.entAt p :: J.seqFrom (p + 1) else J.seqFrom (p + 1)
  else []
termination_by J.len - p

/-- The full iteration of the view, `[begin(), end())`. -/
def JoinView.iterate (J : JoinView) : List Nat := J.seqFrom 0

/-- view.hpp:371-374 — `front()`:
`const auto it = begin(); return it != end() ? *it : null;`. -/
def JoinView.front (J : JoinView) : Nat :=
  if J.beginPos ≠ J.len then J.entAt J.beginPos else nullEntity

/-- The `view_iterator` `operator--` loop (view.hpp:112-115) applied from
position `p + 1`: `while(--it != first && !parent->valid(*it))` — the largest
position `j ≤ p` whose entity passes `valid`, or position 0 (the loop stops at
`first` unconditionally). -/
def JoinView.backScan (J : JoinView) : Nat → Nat
  | 0 => 0
  | p + 1 => if J.valid (J.entAt (p + 1)) then p + 1 else J.backScan p

/-- view.hpp:381-384 — `back()`:
`const auto it = rbegin(); return it != rend() ? *it : null;`.
`rbegin() != rend()` compares the bases `end()` and `begin()`, i.e. holds iff
`beginPos ≠ len`; `*rbegin()` dereferences `--end()`. -/
def JoinView.back (J : JoinView) : Nat :=
  if J.beginPos ≠ J.len then J.entAt (J.backScan (J.len - 1)) else nullEntity

/-- view.hpp:392-395 — `find`:
`iterator it{view_type<leading_type>::find(entt), *this};
 return (it != end() && *it == entt) ? it : end();`.
The wrapping constructor applies the skip loop to the found position. -/
def JoinView.findPos (J : JoinView) (e : Nat) : Nat :=
  let p := J.nextValid (J.first.find e)
  if p ≠ J.len && J.entAt p == e then p else J.len

/-- The argument list built by `traverse` for one invocation of `func`
(view.hpp:251 / view.hpp:263): one argument per `Type` in `return_type` — the
non-tag components of `Component...` in declaration order (view.hpp:74) — where
the driving component's argument is the value `c` carried by the dense walk and
any other component's argument is `view_type<Type>::get(entt)`
(view.hpp:236-243).  `i` indexes the head of `l` within the pack, `k` is the
driving component's index. -/
def argsAux (k : Nat) (e c : Nat) : Nat → List Table → List Nat
  | _, [] => []
  | i, t :: ts =>
    (if t.isTag then [] else [if i == k then c else t.get e]) ++ argsAux k e c (i + 1) ts

/-- The full argument list for driver `k`, walk-carried value `c`, entity `e`. -/
def JoinView.argsFor (J : JoinView) (k : Nat) (e c : Nat) : List Nat :=
  argsAux k e c 0 J.includes

/-- The spec's calling convention (§4.4): references to exactly the non-tag
included components, in declaration order, each obtained by `get`. -/
def JoinView.callArgs (J : JoinView) (e : Nat) : List Nat :=
  (J.includes.filter fun t => !t.isTag).map fun t => t.get e

/-- view.hpp:245-268 — `traverse<Comp>` with `Comp` the included component at
index `k`: when `Comp` is in `return_type` (non-tag), walk
`view_type<Comp>::all()` — the paired dense entity/component arrays — else walk
the single view's entity range; filter with the restricted validity check and
record each invocation of `func` as `(entity, argument list)`. -/
def JoinView.traverse (J : JoinView) (k : Nat) : List (Nat × List Nat) :=
  let d := J.tableAt k
  if d.isTag then
    (d.entities.filter fun e => J.validExcept k e).map fun e => (e, J.argsFor k e 0)
  else
    ((d.entities.zip d.comps).filter fun p => J.validExcept k p.1).map
      fun p => (p.1, J.argsFor k p.1 p.2)

/-- view.hpp:456-460 — `each(func)`:
`const auto size = std::min({ view_type<Component>::size()... });
 ((view_type<Component>::size() == size ? (traverse<Component>(...), true)
                                        : false) || ...);`
The short-circuit fold over `Component...` in declaration order: the first
component whose size equals the minimum is traversed, then the fold stops. -/
def JoinView.eachAux (J : JoinView) (sz : Nat) : List Table → Nat → List (Nat × List Nat)
  | [], _ => []
  | t :: ts, k => if t.size == sz then J.traverse k else J.eachAux sz ts (k + 1)

/-- The sequence of `func` invocations made by `each(func)` (view.hpp:456-460). -/
def JoinView.eachRecords (J : JoinView) : List (Nat × List Nat) :=
  J.eachAux J.size_hint J.includes 0

/-- The index of the driving component selected by `each` — the first whose
size equals the minimum. -/
def JoinView.driverIdx (J : JoinView) : Nat :=
  J.includes.findIdx fun t => t.size == J.size_hint

/-- The non-leading part of a `view_range` record
(view.hpp:153-162, `get<Comp>` for `Comp ≠ leading_type`): empty for tag
components, `curr.get(entity)` otherwise, in declaration order. -/
def JoinView.restArgs (J : JoinView) (e : Nat) : List Nat :=
  (J.rest.filter fun t => !t.isTag).map fun t => t.get e

/-- view.hpp:145-229 — the lazy `view_range` (`all()`): driven by the fixed
leading table; the walk pairs the leading table's dense entity and component
arrays (`view_type<leading_type>::all()`), skips entities failing
`parent->valid` (view.hpp:169, view.hpp:185), and each record is
`std::tuple_cat(get<Component>(*parent)...)` (view.hpp:195): for the leading
component `*it` — the walked `(entity, component)` pair, or `(entity)` alone
when the leading type is a tag — then the remaining components' arguments. -/
def JoinView.allRecords (J : JoinView) : List (Nat × List Nat) :=
  if J.first.isTag then
    (J.first.entities.filter fun e => J.valid e).map fun e => (e, J.restArgs e)
  else
    ((J.first.entities.zip J.first.comps).filter fun p => J.valid p.1).map
      fun p => (p.1, p.2 :: J.restArgs p.1)

/-- view.hpp:423-432 — `get<Comp...>` of the multi view dispatches each
requested component to its single view's `get`; one component is returned
bare, several as a tuple (modelled uniformly as a list of values).  `idxs` are
the indices of the requested components within `Component...`. -/
def JoinView.getMany (J : JoinView) (idxs : List Nat) (e : Nat) : List Nat :=
  idxs.map fun i => (J.tableAt i).get e

/-- view.hpp:861-865 — the `(entity, component)` branch of the single view's
`each`: `auto raw = pool->begin(); for(const auto entt: *this)
func(entt, *(raw++));` — the entity cursor and the separately advanced
component cursor walk the parallel dense arrays in lockstep. -/
def Table.eachPairs (t : Table) : List (Nat × Nat) := t.entities.zip t.comps

/-! ### Concrete test data (spec §8 scenario: A = {1,2,3}, B = {2,3,4}) -/

/-- Table A of the spec's test scenario: entities 1,2,3 with int payloads. -/
def tblA : Table := ⟨[1, 2, 3], [10, 20, 30], false⟩

/-- Table B of the spec's test scenario: entities 2,3,4 with int payloads. -/
def tblB : Table := ⟨[2, 3, 4], [200, 300, 400], false⟩

/-- An exclusion table holding entity 3. -/
def tblX : Table := ⟨[3], [99], false⟩

/-- The join over (A, B) excluding X; its result set is {2}. -/
def joinAB : JoinView := ⟨tblA, [tblB], [tblX]⟩

/-- A tag (zero-size) component table over entities 5,6. -/
def tagT : Table := ⟨[5, 6], [], true⟩

/-- A join whose only included type is a tag. -/
def joinTag : JoinView := ⟨tagT, [], []⟩

/-! ### Basic lemmas about the table model -/

theorem Table.contains_iff_mem (t : Table) (e : Nat) :
    t.contains e = true ↔ e ∈ t.entities := by
  simp [Table.contains, List.contains]

theorem Table.contains_of_mem {t : Table} {e : Nat} (h : e ∈ t.entities) :
    t.contains e = true :=
  (t.contains_iff_mem e).mpr h

/-! ### The included-tables conjunction and the argument builder -/

theorem includedCheck_eq_all (k e : Nat) :
    ∀ (l : List Table) (i : Nat),
      (∀ j, j < l.length → i + j = k → (l.getD j emptyTable).contains e = true) →
      includedCheck k e i l = (l.all fun t => t.contains e) := by
  intro l
  induction l with
  | nil => intro i _; rfl
  | cons t ts ih =>
    intro i hc
    have htail : includedCheck k e (i + 1) ts = (ts.all fun t => t.contains e) := by
      refine ih (i + 1) ?_
      intro j hj hjk
      have := hc (j + 1) (by simpa using Nat.succ_lt_succ hj) (by omega)
      simpa using this
    by_cases hik : i = k
    · subst hik
      have ht : t.contains e = true := by
        have := hc 0 (by simp) (by omega)
        simpa using this
      simp [includedCheck, htail, ht]
    · have hbeq : (i == k) = false := by simp [hik]
      simp [includedCheck, htail, hbeq]

theorem validExcept_eq_contains (J : JoinView) (k e : Nat)
    (hk : k < J.includes.length) (he : (J.tableAt k).contains e = true) :
    J.validExcept k e = J.contains e := by
  unfold JoinView.validExcept JoinView.contains
  rw [includedCheck_eq_all k e J.includes 0]
  intro j hj hjk
  have hjez : j = k := by omega
  subst hjez
  exact he

theorem valid_eq_contains_of_mem_first (J : JoinView) (e : Nat)
    (h : e ∈ J.first.entities) : J.valid e = J.contains e := by
  unfold JoinView.valid
  exact validExcept_eq_contains J 0 e (by simp [JoinView.includes])
    (by simpa [JoinView.tableAt, JoinView.includes] using Table.contains_of_mem h)

theorem argsAux_eq (k e c : Nat) :
    ∀ (l : List Table) (i : Nat),
      (∀ j, j < l.length → i + j = k → (l.getD j emptyTable).isTag = false →
        c = (l.getD j emptyTable).get e) →
      argsAux k e c i l = (l.filter fun t => !t.isTag).map fun t => t.get e := by
  intro l
  induction l with
  | nil => intro i _; rfl
  | cons t ts ih =>
    intro i hc
    have htail : argsAux k e c (i + 1) ts
        = (ts.filter fun t => !t.isTag).map fun t => t.get e := by
      refine ih (i + 1) ?_
      intro j hj hjk htag
      have := hc (j + 1) (by simpa using Nat.succ_lt_succ hj) (by omega) (by simpa using htag)
      simpa using this
    by_cases htag : t.isTag = true
    · simp [argsAux, htag, htail, List.filter_cons]
    · have htagf : t.isTag = false := by simpa using htag
      by_cases hik : i = k
      · subst hik
        have hce : c = t.get e := by
          have := hc 0 (by simp) (by omega) (by simpa using htagf)
          simpa using this
        rw [hce] at htail
        simp [argsAux, htagf, htail, List.filter_cons, hce]
      · have hbeq : (i == k) = false := by simp [hik]
        simp [argsAux, htagf, htail, List.filter_cons, hbeq]

theorem argsFor_eq_callArgs (J : JoinView) (k e c : Nat)
    (hk : k < J.includes.length)
    (hc : (J.tableAt k).isTag = false → c = (J.tableAt k).get e) :
    J.argsFor k e c = J.callArgs e := by
  unfold JoinView.argsFor JoinView.callArgs
  refine argsAux_eq k e c J.includes 0 ?_
  intro j hj hjk htag
  have hjez : j = k := by omega
  subst hjez
  exact hc htag

/-! ### Parallel dense-array (zip) lemmas -/

theorem zip_filter_map_fst (q : Nat → Bool) :
    ∀ (l m : List Nat), m.length = l.length →
      ((l.zip m).filter fun p => q p.1).map Prod.fst = l.filter q := by
  intro l
  induction l with
  | nil => intro m _; rfl
  | cons a l ih =>
    intro m hm
    cases m with
    | nil => simp at hm
    | cons b m =>
      have hm' : m.length = l.length := by simpa using hm
      by_cases hq : q a = true <;>
        simp [List.zip_cons_cons, List.filter_cons, hq, ih m hm']

theorem zip_snd_eq_getD :
    ∀ (l m : List Nat), l.Nodup →
      ∀ p, p ∈ l.zip m → m.getD (l.indexOf p.1) 0 = p.2 := by
  intro l
  induction l with
  | nil => intro m _ p hp; simp at hp
  | cons a l ih =>
    intro m hnd p hp
    cases m with
    | nil => simp at hp
    | cons b m =>
      rw [List.zip_cons_cons] at hp
      rcases List.mem_cons.mp hp with h | h
      · subst h
        simp [List.indexOf_cons_self]
      · have hmem : p.1 ∈ l := (List.of_mem_zip h).1
        have hne : p.1 ≠ a := fun hh => (List.nodup_cons.mp hnd).1 (hh ▸ hmem)
        rw [List.indexOf_cons_ne _ (fun hh => hne hh.symm)]
        simpa using ih m (List.nodup_cons.mp hnd).2 p h

theorem Table.zip_snd_eq_get (t : Table) (hwf : t.WF) :
    ∀ p, p ∈ t.entities.zip t.comps → p.2 = t.get p.1 := by
  intro p hp
  exact (zip_snd_eq_getD t.entities t.comps hwf.1 p hp).symm

/-! ### Canonical forms of the two traversals -/

theorem traverse_canon (J : JoinView) (k : Nat)
    (hk : k < J.includes.length) (hwf : (J.tableAt k).WF) :
    J.traverse k
      = ((J.tableAt k).entities.filter fun e => J.validExcept k e).map
          fun e => (e, J.callArgs e) := by
  by_cases htag : (J.tableAt k).isTag = true
  · simp only [JoinView.traverse, htag, if_true]
    refine List.map_congr_left ?_
    intro e _
    have h0 : J.argsFor k e 0 = J.callArgs e :=
      argsFor_eq_callArgs J k e 0 hk (fun hf => by rw [htag] at hf; cases hf)
    simp [h0]
  · have htagf : (J.tableAt k).isTag = false := by simpa using htag
    simp only [JoinView.traverse, htagf, Bool.false_eq_true, if_false]
    have h1 : (((J.tableAt k).entities.zip (J.tableAt k).comps).filter
          fun p => J.validExcept k p.1).map (fun p => (p.1, J.argsFor k p.1 p.2))
        = (((J.tableAt k).entities.zip (J.tableAt k).comps).filter
          fun p => J.validExcept k p.1).map (fun p => (p.1, J.callArgs p.1)) := by
      refine List.map_congr_left ?_
      intro p hp
      have hpe : p.2 = (J.tableAt k).get p.1 :=
        Table.zip_snd_eq_get _ hwf p (List.mem_of_mem_filter hp)
      have := argsFor_eq_callArgs J k p.1 p.2 hk (fun _ => hpe)
      simp [this]
    rw [h1]
    have h2 : (fun p : Nat × Nat => (p.1, J.callArgs p.1))
        = (fun e => (e, J.callArgs e)) ∘ Prod.fst := rfl
    rw [h2, ← List.map_map, zip_filter_map_fst _ _ _ (hwf.2 htagf)]

theorem callArgs_expand (J : JoinView) (e : Nat) :
    J.callArgs e
      = (if J.first.isTag then [] else [J.first.get e]) ++ J.restArgs e := by
  unfold JoinView.callArgs JoinView.restArgs JoinView.includes
  by_cases h : J.first.isTag = true <;> simp [List.filter_cons, h]

theorem allRecords_canon (J : JoinView) (hwf : J.first.WF) :
    J.allRecords
      = (J.first.entities.filter fun e => J.valid e).map fun e => (e, J.callArgs e) := by
  unfold JoinView.allRecords
  by_cases htag : J.first.isTag = true
  · simp only [htag, if_true]
    refine List.map_congr_left ?_
    intro e _
    simp [callArgs_expand, JoinView.restArgs, htag]
  · have htagf : J.first.isTag = false := by simpa using htag
    simp only [htagf, Bool.false_eq_true, if_false]
    have h1 : ((J.first.entities.zip J.first.comps).filter fun p => J.valid p.1).map
          (fun p => (p.1, p.2 :: J.restArgs p.1))
        = ((J.first.entities.zip J.first.comps).filter fun p => J.valid p.1).map
          (fun p => (p.1, J.callArgs p.1)) := by
      refine List.map_congr_left ?_
      intro p hp
      have hpe : p.2 = J.first.get p.1 :=
        Table.zip_snd_eq_get _ hwf p (List.mem_of_mem_filter hp)
      simp [callArgs_expand, htagf, hpe]
    rw [h1]
    have h2 : (fun p : Nat × Nat => (p.1, J.callArgs p.1))
        = (fun e => (e, J.callArgs e)) ∘ Prod.fst := rfl
    rw [h2, ← List.map_map, zip_filter_map_fst _ _ _ (hwf.2 htagf)]

/-! ### The `each` driver-selection fold -/

theorem eachAux_eq_traverse (J : JoinView) (sz : Nat) :
    ∀ (ts : List Table) (k : Nat), (∃ t ∈ ts, t.size = sz) →
      J.eachAux sz ts k = J.traverse (k + ts.findIdx fun t => t.size == sz) := by
  intro ts
  induction ts with
  | nil =>
    intro k h
    rcases h with ⟨t, ht, _⟩
    cases ht
  | cons t ts ih =>
    intro k h
    by_cases hsz : t.size = sz
    · have hbeq : (t.size == sz) = true := by simp [hsz]
      simp [JoinView.eachAux, List.findIdx_cons, hbeq]
    · have hbeq : (t.size == sz) = false := by simp [hsz]
      have hex : ∃ u ∈ ts, u.size = sz := by
        rcases h with ⟨u, hu, husz⟩
        rcases List.mem_cons.mp hu with h1 | h1
        · exact absurd (h1 ▸ husz) hsz
        · exact ⟨u, h1, husz⟩
      rw [show J.eachAux sz (t :: ts) k = J.eachAux sz ts (k + 1) by
        simp [JoinView.eachAux, hbeq]]
      rw [ih (k + 1) hex, List.findIdx_cons, hbeq]
      simp only [cond_false]
      congr 1
      omega

/-! ### `size_hint` as the minimum of the included sizes -/

theorem foldl_min_le (l : List Nat) : ∀ (a : Nat), l.foldl min a ≤ a := by
  induction l with
  | nil => intro a; simp
  | cons x l ih => intro a; exact le_trans (ih (min a x)) (min_le_left a x)

theorem foldl_min_le_mem (l : List Nat) :
    ∀ (a : Nat), ∀ x ∈ l, l.foldl min a ≤ x := by
  induction l with
  | nil => intro a x hx; cases hx
  | cons y l ih =>
    intro a x hx
    rcases List.mem_cons.mp hx with h | h
    · subst h
      exact le_trans (foldl_min_le l (min a x)) (min_le_right a x)
    · exact ih (min a y) x h

theorem foldl_min_mem (l : List Nat) :
    ∀ (a : Nat), l.foldl min a = a ∨ l.foldl min a ∈ l := by
  induction l with
  | nil => intro a; left; rfl
  | cons x l ih =>
    intro a
    rcases ih (min a x) with h | h
    · by_cases hax : a ≤ x
      · left
        rw [List.foldl_cons, h, min_eq_left hax]
      · right
        rw [List.foldl_cons, h, min_eq_right (le_of_not_le hax)]
        exact List.mem_cons_self x l
    · right
      rw [List.foldl_cons]
      exact List.mem_cons_of_mem _ h

theorem size_hint_eq_foldl_sizes (J : JoinView) :
    J.size_hint = (J.rest.map Table.size).foldl min J.first.size := by
  unfold JoinView.size_hint
  rw [List.foldl_map]

theorem size_hint_le (J : JoinView) : ∀ t ∈ J.includes, J.size_hint ≤ t.size := by
  intro t ht
  rw [size_hint_eq_foldl_sizes]
  rcases List.mem_cons.mp ht with h | h
  · rw [h]
    exact foldl_min_le _ _
  · exact foldl_min_le_mem _ _ _ (List.mem_map_of_mem Table.size h)

theorem size_hint_attained (J : JoinView) :
    ∃ t ∈ J.includes, t.size = J.size_hint := by
  rcases foldl_min_mem (J.rest.map Table.size) J.first.size with h | h
  · exact ⟨J.first, List.mem_cons_self _ _, by rw [size_hint_eq_foldl_sizes, h]⟩
  · rcases List.mem_map.mp h with ⟨t, ht, hsz⟩
    exact ⟨t, List.mem_cons_of_mem _ ht, by rw [hsz, size_hint_eq_foldl_sizes]⟩

theorem driverIdx_lt (J : JoinView) : J.driverIdx < J.includes.length := by
  unfold JoinView.driverIdx
  refine List.findIdx_lt_length_of_exists ?_
  rcases size_hint_attained J with ⟨t, ht, hsz⟩
  exact ⟨t, ht, by simp [hsz]⟩

theorem tableAt_eq_getElem (J : JoinView) (k : Nat) (hk : k < J.includes.length) :
    J.tableAt k = J.includes[k] := by
  simp [JoinView.tableAt, List.getElem?_eq_getElem hk]

theorem driverIdx_size (J : JoinView) :
    (J.tableAt J.driverIdx).size = J.size_hint := by
  have hlt : (J.includes.findIdx fun t => t.size == J.size_hint)
      < J.includes.length := by
    simpa [JoinView.driverIdx] using driverIdx_lt J
  have h := List.findIdx_getElem (w := hlt)
  rw [tableAt_eq_getElem J _ (driverIdx_lt J)]
  simpa [JoinView.driverIdx] using h

theorem driverIdx_first_min (J : JoinView) :
    ∀ i, i < J.driverIdx → (J.tableAt i).size ≠ J.size_hint := by
  intro i hi
  have hlt : i < J.includes.length := lt_trans hi (driverIdx_lt J)
  have hi' : i < J.includes.findIdx fun t => t.size == J.size_hint := by
    simpa [JoinView.driverIdx] using hi
  have h := List.not_of_lt_findIdx hi'
  rw [tableAt_eq_getElem J i hlt]
  intro hC
  simp [hC] at h

theorem eachRecords_eq_traverse (J : JoinView) :
    J.eachRecords = J.traverse J.driverIdx := by
  unfold JoinView.eachRecords JoinView.driverIdx
  rcases size_hint_attained J with ⟨t, ht, hsz⟩
  have := eachAux_eq_traverse J J.size_hint J.includes 0 ⟨t, ht, hsz⟩
  simpa using this

/-! ### The filtering iterator: skip loop and iteration sequence -/

theorem nextValid_le (J : JoinView) : ∀ p, J.nextValid p ≤ J.len := by
  have H : ∀ n p, J.len - p ≤ n → J.nextValid p ≤ J.len := by
    intro n
    induction n with
    | zero =>
      intro p hp
      rw [JoinView.nextValid]
      have h1 : ¬ p < J.len := by omega
      simp [h1]
    | succ n ih =>
      intro p hp
      rw [JoinView.nextValid]
      by_cases h1 : p < J.len
      · by_cases h2 : J.valid (J.entAt p) = true
        · simp [h1, h2]
          omega
        · simp [h1, h2]
          exact ih (p + 1) (by omega)
      · simp [h1]
  exact fun p => H (J.len - p) p (le_refl _)

theorem nextValid_eq_self (J : JoinView) (p : Nat) (h1 : p < J.len)
    (h2 : J.valid (J.entAt p) = true) : J.nextValid p = p := by
  rw [JoinView.nextValid]
  simp [h1, h2]

theorem nextValid_valid (J : JoinView) :
    ∀ p, J.nextValid p < J.len → J.valid (J.entAt (J.nextValid p)) = true := by
  have H : ∀ n p, J.len - p ≤ n → J.nextValid p < J.len →
      J.valid (J.entAt (J.nextValid p)) = true := by
    intro n
    induction n with
    | zero =>
      intro p hp hlt
      rw [JoinView.nextValid] at hlt
      have h1 : ¬ p < J.len := by omega
      simp [h1] at hlt
    | succ n ih =>
      intro p hp hlt
      by_cases h1 : p < J.len
      · by_cases h2 : J.valid (J.entAt p) = true
        · rw [nextValid_eq_self J p h1 h2]
          exact h2
        · rw [JoinView.nextValid] at hlt ⊢
          simp [h1, h2] at hlt ⊢
          exact ih (p + 1) (by omega) hlt
      · rw [JoinView.nextValid] at hlt
        simp [h1] at hlt
  exact fun p => H (J.len - p) p (le_refl _)

theorem seqFrom_eq_filter (J : JoinView) :
    ∀ p, J.seqFrom p = (J.first.entities.drop p).filter fun e => J.valid e := by
  have H : ∀ n p, J.len - p ≤ n →
      J.seqFrom p = (J.first.entities.drop p).filter fun e => J.valid e := by
    intro n
    induction n with
    | zero =>
      intro p hp
      rw [JoinView.seqFrom]
      have h1 : ¬ p < J.len := by omega
      have hd : J.first.entities.drop p = [] :=
        List.drop_eq_nil_of_le (by unfold JoinView.len at h1; omega)
      simp [h1, hd]
    | succ n ih =>
      intro p hp
      rw [JoinView.seqFrom]
      by_cases h1 : p < J.len
      · have hplen : p < J.first.entities.length := h1
        have hd : J.first.entities.drop p
            = J.first.entities[p] :: J.first.entities.drop (p + 1) :=
          List.drop_eq_getElem_cons hplen
        have hent : J.entAt p = J.first.entities[p] := by
          simp [JoinView.entAt, List.getElem?_eq_getElem hplen]
        by_cases h2 : J.valid (J.entAt p) = true
        · simp only [h1, dif_pos, h2, if_true]
          rw [hd, List.filter_cons, ih (p + 1) (by omega), ← hent, h2]
          simp
        · have h2f : J.valid (J.entAt p) = false := by simpa using h2
          simp only [h1, dif_pos, h2f, Bool.false_eq_true, if_false]
          rw [hd, List.filter_cons, ih (p + 1) (by omega), ← hent, h2f]
          simp
      · have hd : J.first.entities.drop p = [] :=
          List.drop_eq_nil_of_le (by unfold JoinView.len at h1; omega)
        simp [h1, hd]
  exact fun p => H (J.len - p) p (le_refl _)

theorem iterate_eq_filter_valid (J : JoinView) :
    J.iterate = J.first.entities.filter fun e => J.valid e := by
  unfold JoinView.iterate
  rw [seqFrom_eq_filter, List.drop_zero]

theorem iterate_eq_filter_contains (J : JoinView) :
    J.iterate = J.first.entities.filter fun e => J.contains e := by
  rw [iterate_eq_filter_valid]
  refine List.filter_congr ?_
  intro e he
  exact valid_eq_contains_of_mem_first J e he

theorem seqFrom_unfold (J : JoinView) :
    ∀ p, J.seqFrom p = if J.nextValid p < J.len
      then J.entAt (J.nextValid p) :: J.seqFrom (J.nextValid p + 1) else [] := by
  have H : ∀ n p, J.len - p ≤ n →
      J.seqFrom p = if J.nextValid p < J.len
        then J.entAt (J.nextValid p) :: J.seqFrom (J.nextValid p + 1) else [] := by
    intro n
    induction n with
    | zero =>
      intro p hp
      have h1 : ¬ p < J.len := by omega
      have hnv : J.nextValid p = J.len := by
        rw [JoinView.nextValid]
        simp [h1]
      rw [JoinView.seqFrom]
      simp [h1, hnv]
    | succ n ih =>
      intro p hp
      by_cases h1 : p < J.len
      · by_cases h2 : J.valid (J.entAt p) = true
        · have hnv : J.nextValid p = p := nextValid_eq_self J p h1 h2
          rw [JoinView.seqFrom]
          simp [h1, h2, hnv]
        · have h2f : J.valid (J.entAt p) = false := by simpa using h2
          have hnv : J.nextValid p = J.nextValid (p + 1) := by
            rw [JoinView.nextValid]
            simp [h1, h2f]
          rw [JoinView.seqFrom]
          simp only [h1, dif_pos, h2f, Bool.false_eq_true, if_false]
          rw [ih (p + 1) (by omega), hnv]
      · have hnv : J.nextValid p = J.len := by
          rw [JoinView.nextValid]
          simp [h1]
        rw [JoinView.seqFrom]
        simp [h1, hnv]
  exact fun p => H (J.len - p) p (le_refl _)

theorem iterate_nil_iff (J : JoinView) : J.iterate = [] ↔ J.beginPos = J.len := by
  unfold JoinView.iterate JoinView.beginPos
  rw [seqFrom_unfold]
  have hle := nextValid_le J 0
  by_cases h : J.nextValid 0 < J.len
  · simp [h]
    omega
  · simp [h]
    omega

/-! ### The backward scan of `operator--`, for `back()` -/

theorem backScan_last (J : JoinView) :
    ∀ q, q < J.len →
      ((J.first.entities.take (q + 1)).filter fun e => J.valid e) ≠ [] →
      J.entAt (J.backScan q)
        = ((J.first.entities.take (q + 1)).filter fun e => J.valid e).getLastD
            nullEntity := by
  intro q
  induction q with
  | zero =>
    intro hq hne
    have hq' : 0 < J.first.entities.length := hq
    have h0 : J.first.entities.take 1 = [J.entAt 0] := by
      rw [List.take_succ, List.take_zero]
      simp [JoinView.entAt, List.getElem?_eq_getElem hq']
    rw [h0] at hne ⊢
    by_cases hv : J.valid (J.entAt 0) = true
    · simp [List.filter_cons, hv, JoinView.backScan]
    · have hvf : J.valid (J.entAt 0) = false := by simpa using hv
      simp [List.filter_cons, hvf] at hne
  | succ p ihp =>
    intro hq hne
    have hq' : p + 1 < J.first.entities.length := hq
    have htake : J.first.entities.take (p + 2)
        = J.first.entities.take (p + 1) ++ [J.entAt (p + 1)] := by
      rw [List.take_succ]
      simp [JoinView.entAt, List.getElem?_eq_getElem hq']
    by_cases hv : J.valid (J.entAt (p + 1)) = true
    · rw [htake, List.filter_append]
      have hsingle : ([J.entAt (p + 1)].filter fun e => J.valid e)
          = [J.entAt (p + 1)] := by simp [List.filter_cons, hv]
      rw [hsingle, List.getLastD_concat]
      simp [JoinView.backScan, hv]
    · have hvf : J.valid (J.entAt (p + 1)) = false := by simpa using hv
      have hsingle : ([J.entAt (p + 1)].filter fun e => J.valid e) = [] := by
        simp [List.filter_cons, hvf]
      rw [htake, List.filter_append, hsingle, List.append_nil] at hne ⊢
      rw [show J.backScan (p + 1) = J.backScan p by simp [JoinView.backScan, hvf]]
      exact ihp (by omega) hne

/-! ### Membership in the traversal records -/

theorem contains_includes (J : JoinView) (e : Nat) (h : J.contains e = true) :
    ∀ t ∈ J.includes, t.contains e = true := by
  unfold JoinView.contains at h
  have h1 := (Bool.and_eq_true _ _).mp h
  exact fun t ht => List.all_eq_true.mp h1.1 t ht

theorem contains_excludes (J : JoinView) (e : Nat) (h : J.contains e = true) :
    ∀ t ∈ J.excludes, t.contains e = false := by
  unfold JoinView.contains at h
  have h1 := (Bool.and_eq_true _ _).mp h
  intro t ht
  have h2 : J.excludes.any (fun t => t.contains e) = false := by
    simpa using h1.2
  simpa using List.any_eq_false.mp h2 t ht

theorem contains_of_parts (J : JoinView) (e : Nat)
    (h1 : ∀ t ∈ J.includes, t.contains e = true)
    (h2 : ∀ t ∈ J.excludes, t.contains e = false) : J.contains e = true := by
  unfold JoinView.contains
  refine (Bool.and_eq_true _ _).mpr ⟨List.all_eq_true.mpr h1, ?_⟩
  have : J.excludes.any (fun t => t.contains e) = false :=
    List.any_eq_false.mpr (fun t ht => by simp [h2 t ht])
  simp [this]

theorem tableAt_mem (J : JoinView) (k : Nat) (hk : k < J.includes.length) :
    J.tableAt k ∈ J.includes := by
  rw [tableAt_eq_getElem J k hk]
  exact List.getElem_mem hk

theorem first_eq_tableAt_zero (J : JoinView) : J.first = J.tableAt 0 := rfl

theorem mem_canon_iff (l : List Nat) (P : Nat → Bool) (F : Nat → List Nat)
    (e : Nat) (as : List Nat) :
    ((e, as) ∈ (l.filter P).map fun x => (x, F x))
      ↔ (e ∈ l ∧ P e = true ∧ as = F e) := by
  simp only [List.mem_map, List.mem_filter, Prod.mk.injEq]
  constructor
  · rintro ⟨x, ⟨hx, hP⟩, hex, hax⟩
    subst hex
    exact ⟨hx, hP, hax.symm⟩
  · rintro ⟨hx, hP, hax⟩
    exact ⟨e, ⟨hx, hP⟩, rfl, hax.symm⟩

theorem mem_traverse_iff (J : JoinView) (k : Nat) (hk : k < J.includes.length)
    (hwf : (J.tableAt k).WF) (e : Nat) (as : List Nat) :
    (e, as) ∈ J.traverse k ↔ (J.contains e = true ∧ as = J.callArgs e) := by
  rw [traverse_canon J k hk hwf, mem_canon_iff]
  constructor
  · rintro ⟨hmem, hP, has⟩
    have hc : (J.tableAt k).contains e = true := Table.contains_of_mem hmem
    rw [validExcept_eq_contains J k e hk hc] at hP
    exact ⟨hP, has⟩
  · rintro ⟨hcont, has⟩
    have hc : (J.tableAt k).contains e = true :=
      contains_includes J e hcont _ (tableAt_mem J k hk)
    have hmem : e ∈ (J.tableAt k).entities := (Table.contains_iff_mem _ _).mp hc
    exact ⟨hmem, by rw [validExcept_eq_contains J k e hk hc]; exact hcont, has⟩

theorem mem_allRecords_iff (J : JoinView) (hwf : J.first.WF) (e : Nat)
    (as : List Nat) :
    (e, as) ∈ J.allRecords ↔ (J.contains e = true ∧ as = J.callArgs e) := by
  rw [allRecords_canon J hwf, mem_canon_iff]
  have h0 : (0 : Nat) < J.includes.length := by simp [JoinView.includes]
  constructor
  · rintro ⟨hmem, hP, has⟩
    have hc : (J.tableAt 0).contains e = true := Table.contains_of_mem hmem
    rw [JoinView.valid, validExcept_eq_contains J 0 e h0 hc] at hP
    exact ⟨hP, has⟩
  · rintro ⟨hcont, has⟩
    have hc : (J.tableAt 0).contains e = true :=
      contains_includes J e hcont _ (tableAt_mem J 0 h0)
    have hmem : e ∈ J.first.entities := (Table.contains_iff_mem _ _).mp hc
    refine ⟨hmem, ?_, has⟩
    rw [JoinView.valid, validExcept_eq_contains J 0 e h0 hc]
    exact hcont

theorem entAt_mem (J : JoinView) (p : Nat) (h : p < J.len) :
    J.entAt p ∈ J.first.entities := by
  have h' : p < J.first.entities.length := h
  have : J.entAt p = J.first.entities[p] := by
    simp [JoinView.entAt, List.getElem?_eq_getElem h']
  rw [this]
  exact List.getElem_mem h'

theorem findPos_eq (J : JoinView) (e : Nat) :
    J.findPos e = if (J.nextValid (J.first.find e) ≠ J.len
        ∧ J.entAt (J.nextValid (J.first.find e)) = e)
      then J.nextValid (J.first.find e) else J.len := by
  unfold JoinView.findPos
  by_cases h1 : J.nextValid (J.first.find e) = J.len <;>
    by_cases h2 : J.entAt (J.nextValid (J.first.find e)) = e <;>
    simp [h1, h2]

/-! ## The claims -/

/-- Claim C1: for every multi-table join view over included tables and
excluded tables and for every entity `e`, `contains(e)` (view.hpp:402-404) is
true iff every included table contains `e` and no excluded table contains
`e`. -/
theorem C1_join_contains_iff (J : JoinView) (e : Nat) :
    J.contains e = true
      ↔ ((∀ t ∈ J.includes, t.contains e = true)
          ∧ (∀ t ∈ J.excludes, t.contains e = false)) :=
  ⟨fun h => ⟨contains_includes J e h, contains_excludes J e h⟩,
   fun h => contains_of_parts J e h.1 h.2⟩

/-- Claim C2: iterating `[begin(), end())` of a join view yields exactly the
entities of the leading table's dense array that satisfy `contains`, in dense
order (a subsequence of the leading dense array); construction starts at the
first valid position (`beginPos`) and each step advances with the skip loop
(view.hpp:82-105, view.hpp:310-329). -/
theorem C2_iteration_sequence (J : JoinView) :
    J.iterate = (J.first.entities.filter fun e => J.contains e)
      ∧ J.iterate.Sublist J.first.entities
      ∧ J.iterate = (if J.beginPos < J.len
          then J.entAt J.beginPos :: J.seqFrom (J.beginPos + 1) else []) := by
  refine ⟨iterate_eq_filter_contains J, ?_, ?_⟩
  · rw [iterate_eq_filter_valid]
    exact List.filter_sublist _
  · unfold JoinView.iterate JoinView.beginPos
    exact seqFrom_unfold J 0

/-- Claim C6: for every join view and entity, `find(e)` (view.hpp:392-395)
returns a position different from `end()` iff `contains(e)` holds, and when it
does, the returned iterator dereferences to `e` itself. -/
theorem C6_find_iff_contains (J : JoinView) (e : Nat) :
    (J.findPos e ≠ J.len ↔ J.contains e = true)
      ∧ (J.findPos e ≠ J.len → J.entAt (J.findPos e) = e) := by
  have hfwd : J.findPos e ≠ J.len →
      J.contains e = true ∧ J.entAt (J.findPos e) = e := by
    intro hne
    rw [findPos_eq] at hne
    by_cases hc : (J.nextValid (J.first.find e) ≠ J.len
        ∧ J.entAt (J.nextValid (J.first.find e)) = e)
    · have hres : J.findPos e = J.nextValid (J.first.find e) := by
        rw [findPos_eq, if_pos hc]
      have hlt : J.nextValid (J.first.find e) < J.len :=
        lt_of_le_of_ne (nextValid_le J _) hc.1
      have hv : J.valid (J.entAt (J.nextValid (J.first.find e))) = true :=
        nextValid_valid J _ hlt
      rw [hc.2] at hv
      have hmem : e ∈ J.first.entities := by
        rw [← hc.2]
        exact entAt_mem J _ hlt
      have hcont : J.contains e = true := by
        rw [← valid_eq_contains_of_mem_first J e hmem]
        exact hv
      exact ⟨hcont, by rw [hres, hc.2]⟩
    · rw [if_neg hc] at hne
      exact absurd rfl hne
  have hbwd : J.contains e = true →
      J.findPos e ≠ J.len ∧ J.entAt (J.findPos e) = e := by
    intro hcont
    have hmem : e ∈ J.first.entities :=
      (Table.contains_iff_mem _ _).mp
        (contains_includes J e hcont _ (List.mem_cons_self _ _))
    have hv : J.valid e = true := by
      rw [valid_eq_contains_of_mem_first J e hmem]
      exact hcont
    have hlt : J.first.entities.indexOf e < J.first.entities.length :=
      List.indexOf_lt_length.mpr hmem
    have hent : J.entAt (J.first.entities.indexOf e) = e := by
      simp [JoinView.entAt, List.getElem?_eq_getElem hlt,
        List.getElem_indexOf hlt]
    have hnv : J.nextValid (J.first.find e) = J.first.entities.indexOf e := by
      unfold Table.find
      exact nextValid_eq_self J _ hlt (by rw [hent]; exact hv)
    have hres : J.findPos e = J.first.entities.indexOf e := by
      rw [findPos_eq, hnv, if_pos ⟨by unfold JoinView.len; omega, hent⟩]
    constructor
    · rw [hres]
      unfold JoinView.len
      omega
    · rw [hres, hent]
  exact ⟨⟨fun h => (hfwd h).1, fun h => (hbwd h).1⟩, fun h => (hfwd h).2⟩

/-- Claim C9: `front()` (view.hpp:371-374) is the first entity of the
iteration when the join result is non-empty and the null identifier when it is
empty; `back()` (view.hpp:381-384) is symmetrically the last entity or the
null identifier. -/
theorem C9_front_back (J : JoinView) :
    J.front = J.iterate.headD nullEntity
      ∧ J.back = J.iterate.getLastD nullEntity := by
  constructor
  · unfold JoinView.front
    have hle := nextValid_le J 0
    rw [JoinView.iterate, seqFrom_unfold]
    by_cases h : J.nextValid 0 < J.len
    · have hne : J.beginPos ≠ J.len := by
        unfold JoinView.beginPos
        omega
      simp [h, hne, JoinView.beginPos]
      intro hC
      omega
    · have heq : J.beginPos = J.len := by
        unfold JoinView.beginPos
        omega
      simp [h, heq]
  · by_cases hb : J.beginPos = J.len
    · have hnil : J.iterate = [] := (iterate_nil_iff J).mpr hb
      unfold JoinView.back
      simp [hb, hnil]
    · have hlt : J.beginPos < J.len := lt_of_le_of_ne (nextValid_le J 0) hb
      have hlen : 0 < J.len := lt_of_le_of_lt (Nat.zero_le _) hlt
      have hne : J.iterate ≠ [] := fun h => hb ((iterate_nil_iff J).mp h)
      have hiter := iterate_eq_filter_valid J
      have htake : J.first.entities.take ((J.len - 1) + 1) = J.first.entities := by
        have h1 : (J.len - 1) + 1 = J.len := by omega
        rw [h1]
        exact List.take_length _
      have hne2 : ((J.first.entities.take ((J.len - 1) + 1)).filter
          fun e => J.valid e) ≠ [] := by
        rw [htake, ← hiter]
        exact hne
      have hbs := backScan_last J (J.len - 1) (by omega) hne2
      unfold JoinView.back
      rw [if_pos hb, hbs, htake, ← hiter]

/-- Claim C3: `each(func)` without an explicit driver type (view.hpp:456-460)
computes the minimum of the included tables' current sizes, selects as driver
the first included table (declaration order) attaining it — so every earlier
table is strictly larger — and runs exactly one traversal, of that table's
dense array, passing an entity to `func` exactly when it passes the restricted
validity check that skips the driving table and checks every other included
and every excluded table (view.hpp:245-268). -/
theorem C3_each_driver_selection (J : JoinView) (h : ∀ t ∈ J.includes, t.WF) :
    J.eachRecords = J.traverse J.driverIdx
      ∧ J.driverIdx < J.includes.length
      ∧ (J.tableAt J.driverIdx).size = J.size_hint
      ∧ (∀ t ∈ J.includes, J.size_hint ≤ t.size)
      ∧ (∀ i, i < J.driverIdx → J.size_hint < (J.tableAt i).size)
      ∧ J.eachRecords.map Prod.fst
          = ((J.tableAt J.driverIdx).entities.filter
              fun e => J.validExcept J.driverIdx e) := by
  have hk := driverIdx_lt J
  have hwf : (J.tableAt J.driverIdx).WF := h _ (tableAt_mem J _ hk)
  refine ⟨eachRecords_eq_traverse J, hk, driverIdx_size J, size_hint_le J, ?_, ?_⟩
  · intro i hi
    have hne := driverIdx_first_min J i hi
    have hle := size_hint_le J _ (tableAt_mem J i (lt_trans hi hk))
    omega
  · rw [eachRecords_eq_traverse J, traverse_canon J _ hk hwf, List.map_map]
    have hcomp : (Prod.fst ∘ fun e : Nat => (e, J.callArgs e)) = id := rfl
    rw [hcomp, List.map_id]

/-- Claim C4: over a fixed table snapshot, the callback traversal `each`
(view.hpp:456-460) and the lazy sequence `all()` (view.hpp:145-229) visit the
same set of entities (possibly in different orders), and supply the same
component values for each visited entity. -/
theorem C4_each_all_equivalent (J : JoinView) (h : ∀ t ∈ J.includes, t.WF) :
    ∀ e as, ((e, as) ∈ J.eachRecords ↔ (e, as) ∈ J.allRecords) := by
  intro e as
  have hk := driverIdx_lt J
  have hwfk : (J.tableAt J.driverIdx).WF := h _ (tableAt_mem J _ hk)
  have hwf0 : J.first.WF := h _ (List.mem_cons_self _ _)
  rw [eachRecords_eq_traverse J, mem_traverse_iff J _ hk hwfk e as,
    mem_allRecords_iff J hwf0 e as]

/-- Claim C5: `size_hint()` (view.hpp:294-296) equals the minimum of the
included tables' sizes — it is attained and is a lower bound of every included
size — and bounds from above the number of entities a full iteration of the
view yields. -/
theorem C5_size_hint_bound (J : JoinView) (h : J.first.entities.Nodup) :
    (∀ t ∈ J.includes, J.size_hint ≤ t.size)
      ∧ (∃ t ∈ J.includes, t.size = J.size_hint)
      ∧ J.iterate.length ≤ J.size_hint := by
  refine ⟨size_hint_le J, size_hint_attained J, ?_⟩
  rcases size_hint_attained J with ⟨t, ht, hsz⟩
  rw [← hsz]
  have hnd : J.iterate.Nodup := by
    rw [iterate_eq_filter_valid]
    exact h.filter _
  have hsub : J.iterate ⊆ t.entities := by
    intro x hx
    rw [iterate_eq_filter_contains] at hx
    have hcx : J.contains x = true := (List.mem_filter.mp hx).2
    exact (Table.contains_iff_mem t x).mp (contains_includes J x hcx t ht)
  exact (List.subperm_of_subset hnd hsub).length_le

/-- Claim C7: each `func` invocation of a join traversal — the callback
`each` (view.hpp:245-268) and the lazy sequence `all()` (view.hpp:145-229)
alike — receives the entity together with exactly the non-tag included
components' values in declaration order (`return_type`, view.hpp:74); tag
components are elided; and for a join whose included types are all tags, both
traversals produce one record per matching entity with an empty argument
list. -/
theorem C7_calling_convention (J : JoinView) (h : ∀ t ∈ J.includes, t.WF) :
    (∀ p ∈ J.eachRecords, p.2 = J.callArgs p.1)
      ∧ (∀ p ∈ J.allRecords, p.2 = J.callArgs p.1)
      ∧ (∀ e, J.callArgs e
          = ((J.includes.filter fun t => !t.isTag).map fun t => t.get e))
      ∧ ((∀ t ∈ J.includes, t.isTag = true) →
          (∀ p ∈ J.eachRecords, p.2 = ([] : List Nat))
            ∧ (∀ p ∈ J.allRecords, p.2 = ([] : List Nat))
            ∧ (∀ e, (e ∈ J.eachRecords.map Prod.fst ↔ J.contains e = true))
            ∧ (∀ e, (e ∈ J.allRecords.map Prod.fst ↔ J.contains e = true))
            ∧ (J.eachRecords.map Prod.fst).Nodup
            ∧ (J.allRecords.map Prod.fst).Nodup) := by
  have hk := driverIdx_lt J
  have hwfk : (J.tableAt J.driverIdx).WF := h _ (tableAt_mem J _ hk)
  have hwf0 : J.first.WF := h _ (List.mem_cons_self _ _)
  have hcanon : J.eachRecords
      = ((J.tableAt J.driverIdx).entities.filter
          fun e => J.validExcept J.driverIdx e).map
        fun e => (e, J.callArgs e) := by
    rw [eachRecords_eq_traverse J, traverse_canon J _ hk hwfk]
  have hcanonA : J.allRecords
      = (J.first.entities.filter fun e => J.valid e).map
        fun e => (e, J.callArgs e) := allRecords_canon J hwf0
  have hargs : ∀ p ∈ J.eachRecords, p.2 = J.callArgs p.1 := by
    intro p hp
    rw [hcanon] at hp
    rcases List.mem_map.mp hp with ⟨x, _, hpx⟩
    rw [← hpx]
  have hargsA : ∀ p ∈ J.allRecords, p.2 = J.callArgs p.1 := by
    intro p hp
    rw [hcanonA] at hp
    rcases List.mem_map.mp hp with ⟨x, _, hpx⟩
    rw [← hpx]
  have hmemE : ∀ e, (e ∈ J.eachRecords.map Prod.fst ↔ J.contains e = true) := by
    intro e
    rw [hcanon, List.map_map]
    have hcomp : (Prod.fst ∘ fun e : Nat => (e, J.callArgs e)) = id := rfl
    rw [hcomp, List.map_id]
    constructor
    · intro hx
      obtain ⟨hm, hv⟩ := List.mem_filter.mp hx
      have hc : (J.tableAt J.driverIdx).contains e = true :=
        Table.contains_of_mem hm
      rw [validExcept_eq_contains J _ e hk hc] at hv
      exact hv
    · intro hcont
      have hc : (J.tableAt J.driverIdx).contains e = true :=
        contains_includes J e hcont _ (tableAt_mem J _ hk)
      refine List.mem_filter.mpr ⟨(Table.contains_iff_mem _ _).mp hc, ?_⟩
      rw [validExcept_eq_contains J _ e hk hc]
      exact hcont
  have hmemA : ∀ e, (e ∈ J.allRecords.map Prod.fst ↔ J.contains e = true) := by
    intro e
    rw [hcanonA, List.map_map]
    have hcomp : (Prod.fst ∘ fun e : Nat => (e, J.callArgs e)) = id := rfl
    rw [hcomp, List.map_id]
    constructor
    · intro hx
      obtain ⟨hm, hv⟩ := List.mem_filter.mp hx
      rw [valid_eq_contains_of_mem_first J e hm] at hv
      exact hv
    · intro hcont
      have hm : e ∈ J.first.entities :=
        (Table.contains_iff_mem _ _).mp
          (contains_includes J e hcont _ (List.mem_cons_self _ _))
      refine List.mem_filter.mpr ⟨hm, ?_⟩
      rw [valid_eq_contains_of_mem_first J e hm]
      exact hcont
  refine ⟨hargs, hargsA, fun _ => rfl, ?_⟩
  intro htags
  have hempty : ∀ e, J.callArgs e = [] := by
    intro e
    unfold JoinView.callArgs
    rw [List.filter_eq_nil_iff.mpr (fun t ht => by simp [htags t ht])]
    rfl
  refine ⟨fun p hp => by rw [hargs p hp, hempty],
    fun p hp => by rw [hargsA p hp, hempty], hmemE, hmemA, ?_, ?_⟩
  · rw [hcanon, List.map_map]
    have hcomp : (Prod.fst ∘ fun e : Nat => (e, J.callArgs e)) = id := rfl
    rw [hcomp, List.map_id]
    exact hwfk.1.filter _
  · rw [hcanonA, List.map_map]
    have hcomp : (Prod.fst ∘ fun e : Nat => (e, J.callArgs e)) = id := rfl
    rw [hcomp, List.map_id]
    exact hwf0.1.filter _

/-- Claim C8: under the precondition `contains(e)`, `get<Comp...>(e)`
(view.hpp:423-432) returns, for each requested component, exactly the value
stored at `e`'s dense offset in that component's table (a single value for one
type, the record of values for several); the function is total — no error
value is ever returned to the caller. -/
theorem C8_get_stored (J : JoinView) (idxs : List Nat) (e : Nat)
    (hcont : J.contains e = true)
    (hidx : ∀ i ∈ idxs, i < J.includes.length) :
    J.getMany idxs e = (idxs.map fun i => (J.tableAt i).get e)
      ∧ (∀ i ∈ idxs, ∃ j, j < (J.tableAt i).size
          ∧ (J.tableAt i).entities.getD j 0 = e
          ∧ (J.tableAt i).get e = (J.tableAt i).comps.getD j 0) := by
  refine ⟨rfl, ?_⟩
  intro i hi
  have hki := hidx i hi
  have hc : (J.tableAt i).contains e = true :=
    contains_includes J e hcont _ (tableAt_mem J i hki)
  have hmem : e ∈ (J.tableAt i).entities := (Table.contains_iff_mem _ _).mp hc
  have hlt : (J.tableAt i).entities.indexOf e < (J.tableAt i).entities.length :=
    List.indexOf_lt_length.mpr hmem
  refine ⟨(J.tableAt i).entities.indexOf e, hlt, ?_, rfl⟩
  simp [List.getElem?_eq_getElem hlt, List.getElem_indexOf hlt]

/-- Claim C10: for a single-table view over a non-tag component, the
`(entity, component)` form of `each` (view.hpp:861-865) invokes `func` once
per entity in table order, and the component value paired with each entity is
exactly `get` of that entity — the two parallel dense-array cursors stay in
lockstep. -/
theorem C10_single_each_lockstep (t : Table) (h : t.WF) (htag : t.isTag = false) :
    t.eachPairs.map Prod.fst = t.entities
      ∧ (∀ p ∈ t.eachPairs, p.2 = t.get p.1)
      ∧ t.entities.Nodup := by
  refine ⟨?_, fun p hp => Table.zip_snd_eq_get t h p hp, h.1⟩
  unfold Table.eachPairs
  exact List.map_fst_zip _ _ (le_of_eq (h.2 htag).symm)

/-- Witness for C3 at the concrete join over (A, B) excluding X. -/
theorem C3_each_driver_selection_witness :
    joinAB.eachRecords = joinAB.traverse joinAB.driverIdx
      ∧ joinAB.driverIdx < joinAB.includes.length
      ∧ (joinAB.tableAt joinAB.driverIdx).size = joinAB.size_hint
      ∧ joinAB.eachRecords.map Prod.fst
          = ((joinAB.tableAt joinAB.driverIdx).entities.filter
              fun e => joinAB.validExcept joinAB.driverIdx e) := by
  have h := C3_each_driver_selection joinAB (by decide)
  exact ⟨h.1, h.2.1, h.2.2.1, h.2.2.2.2.2⟩

/-- Witness for C4: entity 2 with component values (20, 200) is reported by
both traversals of the concrete join. -/
theorem C4_each_all_equivalent_witness :
    ((2, [20, 200]) ∈ joinAB.eachRecords ↔ (2, [20, 200]) ∈ joinAB.allRecords) :=
  C4_each_all_equivalent joinAB (by decide) 2 [20, 200]

/-- Witness for C5 at the concrete join. -/
theorem C5_size_hint_bound_witness :
    joinAB.iterate.length ≤ joinAB.size_hint :=
  (C5_size_hint_bound joinAB (by decide)).2.2

/-- Witness for C7 at the tag-only join: both traversals carry entities, no
component arguments, once per matching entity. -/
theorem C7_calling_convention_witness :
    (5 ∈ joinTag.eachRecords.map Prod.fst ↔ joinTag.contains 5 = true)
      ∧ (5 ∈ joinTag.allRecords.map Prod.fst ↔ joinTag.contains 5 = true)
      ∧ (joinTag.eachRecords.map Prod.fst).Nodup
      ∧ (joinTag.allRecords.map Prod.fst).Nodup := by
  have h := C7_calling_convention joinTag (by decide)
  have h3 := h.2.2.2 (by decide)
  exact ⟨h3.2.2.1 5, h3.2.2.2.1 5, h3.2.2.2.2.1, h3.2.2.2.2.2⟩

/-- Witness for C8: `get` of both components of entity 2 in the concrete
join, and the dense offset holding entity 2's component in table A. -/
theorem C8_get_stored_witness :
    joinAB.getMany [0, 1] 2 = ([0, 1].map fun i => (joinAB.tableAt i).get 2)
      ∧ (∃ j, j < (joinAB.tableAt 0).size
          ∧ (joinAB.tableAt 0).entities.getD j 0 = 2
          ∧ (joinAB.tableAt 0).get 2 = (joinAB.tableAt 0).comps.getD j 0) := by
  have h := C8_get_stored joinAB [0, 1] 2 (by decide) (by decide)
  exact ⟨h.1, h.2 0 (by decide)⟩

/-- Witness for C10 at concrete table A. -/
theorem C10_single_each_lockstep_witness :
    tblA.eachPairs.map Prod.fst = tblA.entities ∧ tblA.entities.Nodup := by
  have h := C10_single_each_lockstep tblA (by decide) (by decide)
  exact ⟨h.1, h.2.2⟩

end EnttView
